import Mathlib

/-!
Verification of `latex_style_converter.py`, a one-shot pipeline that flattens
a multi-file LaTeX manuscript: it validates inputs, runs external tools,
extracts `\includegraphics` references, copies figure files under sequential
names, and rewrites the document text.

The embedding works over `List Char` as the document/paths representation.
Python regular expressions used by the script are embedded by their
deterministic matching behaviour (the patterns involved have no
nondeterminism left after Python's leftmost / greedy / lazy rules, which is
argued pointwise in the doc comments below).
-/

/-- `startsWith p s` is true when `p` is a literal prefix of `s`
(used to embed literal regex fragments and Python `str` prefix tests). -/
def startsWith : List Char → List Char → Bool
  | [], _ => true
  | _ :: _, [] => false
  | p :: ps, c :: cs => p == c && startsWith ps cs

/-- Scan for the first occurrence of character `c`; return the characters
before it and the remainder after it.  This is the deterministic behaviour of
the lazy regex fragments `(.*?)c` and of the greedy `[^c]*c`. -/
def takeUntilChar (c : Char) : List Char → Option (List Char × List Char)
  | [] => none
  | x :: xs =>
    if x == c then some ([], xs)
    else (takeUntilChar c xs).map (fun p => (x :: p.1, p.2))

/-- Split a text on `'\n'`, exactly like Python's `str.split('\n')` and like
the line decomposition performed by `re.MULTILINE` anchoring: the result is
always nonempty and a trailing newline yields a final empty line. -/
def splitLines : List Char → List (List Char)
  | [] => [[]]
  | c :: cs =>
    match splitLines cs with
    | [] => [[]]
    | l :: ls => if c == '\n' then [] :: l :: ls else (c :: l) :: ls

/-- ASCII white-space as matched by Python's `\s`. -/
def pyIsSpace (c : Char) : Bool :=
  c == ' ' || c == '\t' || c == '\n' || c == '\r' || c == '\x0b' || c == '\x0c'

/-- `occursIn pat s` is true when `pat` occurs as a contiguous substring
of `s` (Python's `pat in s`). -/
def occursIn (pat : List Char) : List Char → Bool
  | [] => startsWith pat []
  | c :: cs => startsWith pat (c :: cs) || occursIn pat cs

/-! ## Figure extractor

Embedding of

  pattern = r'^(?!%).*\\includegraphics(?:\[.*?\])?\{(.*?)\}'
  figures = re.findall(pattern, content, re.MULTILINE)

No element of the pattern can match `'\n'`, and every match is anchored at a
line start, so `findall` returns, for each line in order, the capture of the
(at most one) match anchored at that line's start.  Within one line the
greedy `.*` selects the rightmost position at which the rest of the pattern
matches; the optional bracket group tries each closing `']'` from the left
and the braces capture lazily up to the first `'}'`. -/

/-- The literal `\includegraphics`. -/
def inclPat : List Char := "\\includegraphics".toList

/-- Embed `\{(.*?)\}` at the head of the input: an opening brace followed by
a lazily captured argument up to the first closing brace. -/
def tryBrace : List Char → Option (List Char)
  | [] => none
  | c :: u => if c = '{' then (takeUntilChar '}' u).map (fun p => p.1) else none

/-- Embed the tail `.*?\]\{(.*?)\}` (inside an already-opened bracket group):
try each `']'` from the left; after each, require the brace group; on failure
move to the next `']'`. -/
def tryAfterBracket : List Char → Option (List Char)
  | [] => none
  | c :: cs =>
    if c == ']' then
      match tryBrace cs with
      | some cap => some cap
      | none => tryAfterBracket cs
    else tryAfterBracket cs

/-- Embed `(?:\[.*?\])?\{(.*?)\}`: the greedy optional bracket group first
commits to `[` when present (and then the skip alternative cannot succeed,
since `'['` is not `'{'`); otherwise the brace group is tried directly. -/
def matchIncludeArgs : List Char → Option (List Char)
  | [] => none
  | c :: u => if c = '[' then tryAfterBracket u else tryBrace (c :: u)

/-- Try `\\includegraphics(?:\[.*?\])?\{(.*?)\}` anchored at the head of `s`,
returning the brace capture. -/
def matchIncludeAt (s : List Char) : Option (List Char) :=
  if startsWith inclPat s then matchIncludeArgs (s.drop inclPat.length) else none

/-- Behaviour of greedy `.*` before the directive: return the capture of the
rightmost position at which `matchIncludeAt` succeeds. -/
def lastMatch : List Char → Option (List Char)
  | [] => none
  | c :: cs =>
    match lastMatch cs with
    | some cap => some cap
    | none => matchIncludeAt (c :: cs)

/-- Literal comment detection of the pattern's `^(?!%)` anchor: the line's
first character is `'%'`. -/
def isCommentLine : List Char → Bool
  | [] => false
  | c :: _ => c == '%' 

/-- The whole pattern applied to one line. -/
def lineMatch (line : List Char) : Option (List Char) :=
  if isCommentLine line then none else lastMatch line

/-- `extract_figure_names` from the script: all captures of the multiline
pattern, in document order. -/
def extract_figure_names (content : List Char) : List (List Char) :=
  (splitLines content).filterMap lineMatch

/-- Rendering helper for theorem statements: a well-formed inclusion
directive `\includegraphics{r}`. -/
def inclDir (r : List Char) : List Char := inclPat ++ '{' :: (r ++ ['}'])

/-! ## Directive substitution

Embedding of the two text rewrites of the script:

  re.sub(r'\\graphicspath\s*\{[^}]*\}', '', content, flags=re.DOTALL)
  re.sub(r'\\bibliography\s*\{[^}]*\}', r'\\bibliography{References}', content, flags=re.DOTALL)

Both patterns are deterministic: the greedy `\s*` must end exactly at the
maximal white-space run (no shorter run can be followed by `'{'`), and the
greedy `[^}]*` followed by `\}` matches exactly up to the first `'}'`.
`re.sub` scans left to right, replaces each nonoverlapping match and resumes
after the replaced region without rescanning the replacement. -/

/-- Embed `\{[^}]*\}` anchored at the head of the input, returning the text
after the closing brace. -/
def matchBraceArg : List Char → Option (List Char)
  | [] => none
  | c :: u => if c = '{' then (takeUntilChar '}' u).map (fun p => p.2) else none

/-- Try pattern `name\s*\{[^}]*\}` anchored at the head of `s`; on success
return the text following the match. -/
def matchDirectiveAt (name s : List Char) : Option (List Char) :=
  if startsWith name s then matchBraceArg ((s.drop name.length).dropWhile pyIsSpace)
  else none

/-- Fuel-indexed left-to-right substitution loop of `re.sub` for the
directive pattern (the fuel is only a termination device; one unit is spent
per character or per match, so `s.length` units always suffice). -/
def reSubF (name repl : List Char) : Nat → List Char → List Char
  | 0, s => s
  | _ + 1, [] => []
  | fuel + 1, c :: cs =>
    match matchDirectiveAt name (c :: cs) with
    | some rest => repl ++ reSubF name repl fuel rest
    | none => c :: reSubF name repl fuel cs

/-- `re.sub(name + r'\s*\{[^}]*\}', repl, s)` for a literal directive name. -/
def reSub (name repl s : List Char) : List Char :=
  reSubF name repl s.length s

/-- The literal `\graphicspath`. -/
def gpPat : List Char := "\\graphicspath".toList

/-- The literal `\bibliography`. -/
def bibPat : List Char := "\\bibliography".toList

/-- The replacement text `\bibliography{References}`. -/
def canonicalBib : List Char := "\\bibliography{References}".toList

/-- The script's `\graphicspath` strip (line 220-221). -/
def strip_graphicspath (content : List Char) : List Char :=
  reSub gpPat [] content

/-- The script's `\bibliography` rewrite (line 224-225). -/
def rewrite_bibliography (content : List Char) : List Char :=
  reSub bibPat canonicalBib content

/-- `hasDirective name s` is true when the pattern `name\s*\{[^}]*\}`
matches somewhere in `s`. -/
def hasDirective (name : List Char) : List Char → Bool
  | [] => false
  | c :: cs => (matchDirectiveAt name (c :: cs)).isSome || hasDirective name cs

/-! ## Python `str.replace`

Embedding of `s.replace(old, new)` for a nonempty `old`: scan left to right,
replace every nonoverlapping occurrence, resume after the replaced text. -/

/-- Fuel-indexed loop of `str.replace` (again `s.length` units of fuel
always suffice for a nonempty pattern). -/
def replaceAllF (pat repl : List Char) : Nat → List Char → List Char
  | 0, s => s
  | _ + 1, [] => []
  | fuel + 1, c :: cs =>
    if startsWith pat (c :: cs) then repl ++ replaceAllF pat repl fuel ((c :: cs).drop pat.length)
    else c :: replaceAllF pat repl fuel cs

/-- Python `s.replace(pat, repl)` for nonempty `pat`. -/
def replaceAll (pat repl s : List Char) : List Char :=
  replaceAllF pat repl s.length s

/-- The literal `.tex`. -/
def texPat : List Char := ".tex".toList

/-- The literal `.aux`. -/
def auxPat : List Char := ".aux".toList

/-- The script's auxiliary-file derivation `main_name.replace(".tex", ".aux")`
(lines 62 and 139). -/
def aux_file_name (mainName : List Char) : List Char :=
  replaceAll texPat auxPat mainName

/-! ## Path operations (pathlib fragments used by `copy_figures`)

`Path(figure).stem` is the final path component with its last dot-suffix
removed; `p.with_suffix(ext)` removes the last dot-suffix of the final
component (when there is one) and appends `ext`.  A dot-suffix exists when
the last `'.'` of the name is neither its first nor its last character. -/

/-- Final path component: the characters after the last `'/'`. -/
def lastComponent (s : List Char) : List Char :=
  (s.reverse.takeWhile (fun c => !(c == '/'))).reverse

/-- Remove the last dot-suffix of a file name, following pathlib: the suffix
starts at the last `'.'` provided that dot is neither the first nor the last
character of the name. -/
def stripLastSuffix (name : List Char) : List Char :=
  match takeUntilChar '.' name.reverse with
  | some p => if p.1.isEmpty || p.2.isEmpty then name else p.2.reverse
  | none => name

/-- `Path(a) / b` for a nonempty relative component. -/
def joinPath (a b : List Char) : List Char := a ++ '/' :: b

/-- The sequential figure label `Fig<n>`. -/
def figLabel (n : Nat) : List Char := "Fig".toList ++ (Nat.repr n).toList

/-! ## Figure copier

Embedding of `copy_figures(figures, figure_path, target_dir)` (lines 22-50).
The file system and the copy operation are abstracted by two oracle
predicates: `pathExists` answers `Path.exists()` and `copyOk` tells whether
`shutil.copy` from a given source succeeds or raises.  The result records
the returned boolean, the list of performed copies `(source, target)` in
order, and the final `copied_count`. -/

/-- File-system oracles for the copier. -/
structure CopyEnv where
  pathExists : List Char → Bool
  copyOk : List Char → Bool

/-- Observable outcome of `copy_figures`. -/
structure CopyResult where
  ok : Bool
  copies : List (List Char × List Char)
  count : Nat
deriving DecidableEq, Repr

/-- The probe extensions, in the script's fixed order. -/
def extsList : List (List Char) := [".pdf".toList, ".png".toList, ".jpg".toList, ".jpeg".toList]

/-- The name the script actually probes: `figure_path / Path(figure).stem`
followed by `.with_suffix(ext)`, i.e. the final component of the reference
with its last suffix removed by `.stem` and one more suffix removed by
`.with_suffix` when the stem itself still contains a dot. -/
def probeBase (figure : List Char) : List Char :=
  stripLastSuffix (stripLastSuffix (lastComponent figure))

/-- Candidate source file probed for `figure` under extension `ext`. -/
def probeFile (figPath figure ext : List Char) : List Char :=
  joinPath figPath (probeBase figure ++ ext)

/-- First extension (in the fixed order) whose candidate source file exists:
the extension at which the `for ext in extensions` loop stops. -/
def firstExt (env : CopyEnv) (figPath figure : List Char) : Option (List Char) :=
  extsList.find? (fun ext => env.pathExists (probeFile figPath figure ext))

/-- The `for i, figure in enumerate(figures)` loop of `copy_figures`:
on the first existing candidate the copy is attempted; a raised copy is an
immediate `return False`; no existing candidate is a warning and the loop
continues with the next reference. -/
def copy_figures_go (env : CopyEnv) (figPath targetDir : List Char) :
    Nat → List (List Char) → CopyResult
  | _, [] => ⟨true, [], 0⟩
  | i, fig :: rest =>
    match firstExt env figPath fig with
    | some ext =>
      if env.copyOk (probeFile figPath fig ext) then
        let r := copy_figures_go env figPath targetDir (i + 1) rest
        ⟨r.ok, (probeFile figPath fig ext, joinPath targetDir (figLabel (i + 1) ++ ext)) :: r.copies,
          r.count + 1⟩
      else ⟨false, [], 0⟩
    | none => copy_figures_go env figPath targetDir (i + 1) rest

/-- `copy_figures` from the script. -/
def copy_figures (env : CopyEnv) (figures : List (List Char))
    (figPath targetDir : List Char) : CopyResult :=
  copy_figures_go env figPath targetDir 0 figures

/-- Reference function for theorem statements: the resolution map that sends
each (0-based) position `i` and reference to its performed copy, skipping
unresolvable references. -/
def allResolved (env : CopyEnv) (figPath targetDir : List Char) :
    Nat → List (List Char) → List (List Char × List Char)
  | _, [] => []
  | i, fig :: rest =>
    match firstExt env figPath fig with
    | some ext =>
      (probeFile figPath fig ext, joinPath targetDir (figLabel (i + 1) ++ ext)) ::
        allResolved env figPath targetDir (i + 1) rest
    | none => allResolved env figPath targetDir (i + 1) rest

/-! ## Input validation

Embedding of `validate_inputs(main_name, figure_path, latexpand_path)`
(lines 53-76).  File-system queries are the oracles `pathExists` and
`isDir`.  The error messages are reproduced verbatim (the single-quote
character is written `Char.ofNat 39`). -/

/-- The ASCII single-quote character used in the script's messages. -/
def quoteCh : Char := Char.ofNat 39

/-- Message for a missing main file. -/
def msgMainMissing (mainName : List Char) : List Char :=
  "Main LaTeX file ".toList ++ quoteCh :: mainName ++ quoteCh :: " does not exist".toList

/-- Message for a missing auxiliary file. -/
def msgAuxMissing (auxFile : List Char) : List Char :=
  "Auxiliary file ".toList ++ quoteCh :: auxFile ++ quoteCh ::
    " does not exist. Please compile your LaTeX document first.".toList

/-- Message for a missing figure directory. -/
def msgFigMissing (figPath : List Char) : List Char :=
  "Figure path ".toList ++ quoteCh :: figPath ++ quoteCh :: " does not exist".toList

/-- Message for a missing latexpand executable. -/
def msgLpMissing (lpPath : List Char) : List Char :=
  "Latexpand executable ".toList ++ quoteCh :: lpPath ++ quoteCh :: " does not exist".toList

/-- Message for a latexpand path that is a directory. -/
def msgLpIsDir (lpPath : List Char) : List Char :=
  "Latexpand path ".toList ++ quoteCh :: lpPath ++ quoteCh ::
    " is a directory, not an executable file".toList

/-- `validate_inputs` from the script: the ordered error list built from the
four independent checks (the latexpand check has two mutually exclusive
branches). -/
def validate_inputs (pathExists isDir : List Char → Bool)
    (mainName figPath lpPath : List Char) : List (List Char) :=
  (if pathExists mainName then [] else [msgMainMissing mainName]) ++
  (if pathExists (aux_file_name mainName) then [] else [msgAuxMissing (aux_file_name mainName)]) ++
  (if pathExists figPath then [] else [msgFigMissing figPath]) ++
  (if pathExists lpPath then (if isDir lpPath then [msgLpIsDir lpPath] else [])
   else [msgLpMissing lpPath])

/-! ## The `__main__` pipeline

Embedding of the script body (lines 93-251) as a function from an
environment of oracle answers to the observable outcome: exit status,
whether the `transformed` directory stage was reached, which stages ran,
the extracted figures, the copies performed, and the final rewritten text.
External effects are summarised by the environment: exit codes of the two
`os.system` calls, existence/size of `tmp.tex` after expansion, success of
the file reads/moves/writes, and the file-system oracles consumed by
`copy_figures`. -/

/-- Oracle answers for one pipeline run. -/
structure SysEnv where
  pathExists : List Char → Bool
  isDir : List Char → Bool
  bibExit : Nat
  lpExit : Nat
  tmpExistsAfter : Bool
  tmpSize : Nat
  readOk : Bool
  content : List Char
  figExists : List Char → Bool
  copyOk : List Char → Bool
  moveOk : Bool
  readOk2 : Bool
  writeOk : Bool

/-- Observable outcome of a pipeline run. -/
structure MainOutcome where
  exitCode : Nat
  transformedCreated : Bool
  bibRan : Bool
  lpRan : Bool
  figures : List (List Char)
  copyCalled : Bool
  copies : List (List Char × List Char)
  moved : Bool
  rewritten : Bool
  finalContent : Option (List Char)
deriving Repr

/-- The figure renaming loop of the rewrite stage (lines 214-217):
`content.replace(Path(figure).name, 'Fig<i+1>')` for each extracted figure
in order. -/
def renameFiguresGo : Nat → List (List Char) → List Char → List Char
  | _, [], content => content
  | i, fig :: rest, content =>
    renameFiguresGo (i + 1) rest (replaceAll (lastComponent fig) (figLabel (i + 1)) content)

/-- All figure renamings applied, first reference first. -/
def renameFigures (figures : List (List Char)) (content : List Char) : List Char :=
  renameFiguresGo 0 figures content

/-- The output directory name. -/
def trDirName : List Char := "transformed".toList

/-- The script body: validation gate, external tools, extraction, copying,
relocation and rewrite, with the final exit status. -/
def mainRun (env : SysEnv) (mainName figPath lpPath : List Char) : MainOutcome :=
  if (validate_inputs env.pathExists env.isDir mainName figPath lpPath).isEmpty then
    if env.lpExit == 0 then
      if env.tmpExistsAfter && !(env.tmpSize == 0) then
        if env.readOk then
          let figures := extract_figure_names env.content
          let cres :=
            if figures.isEmpty then (⟨true, [], 0⟩ : CopyResult)
            else copy_figures ⟨env.figExists, env.copyOk⟩ figures figPath trDirName
          if cres.ok then
            if env.moveOk then
              if env.readOk2 then
                let c1 := renameFigures figures env.content
                let c2 := strip_graphicspath c1
                let c3 := rewrite_bibliography c2
                if env.writeOk then
                  ⟨0, true, true, true, figures, !figures.isEmpty, cres.copies, true, true, some c3⟩
                else
                  ⟨1, true, true, true, figures, !figures.isEmpty, cres.copies, true, false, none⟩
              else ⟨1, true, true, true, figures, !figures.isEmpty, cres.copies, true, false, none⟩
            else ⟨1, true, true, true, figures, !figures.isEmpty, cres.copies, false, false, none⟩
          else ⟨1, true, true, true, figures, !figures.isEmpty, cres.copies, false, false, none⟩
        else ⟨1, true, true, true, [], false, [], false, false, none⟩
      else ⟨1, true, true, true, [], false, [], false, false, none⟩
    else ⟨1, true, true, true, [], false, [], false, false, none⟩
  else ⟨1, false, false, false, [], false, [], false, false, none⟩

/-- Rendering helper for theorem statements: a text chunk followed by one
well-formed bibliography directive `\bibliography{arg}`. -/
def bibChunk (p : List Char × List Char) : List Char :=
  p.1 ++ bibPat ++ '{' :: (p.2 ++ ['}'])

/-! ## Helper lemmas -/

theorem startsWith_append_self : ∀ (p t : List Char), startsWith p (p ++ t) = true
  | [], _ => rfl
  | c :: ps, t => by simp [startsWith, startsWith_append_self ps t]

theorem startsWith_length_le : ∀ {p s : List Char}, startsWith p s = true → p.length ≤ s.length := by
  intro p
  induction p with
  | nil => intro s _; simp
  | cons c ps ih =>
    intro s h
    cases s with
    | nil => simp [startsWith] at h
    | cons d ds =>
      simp only [startsWith, Bool.and_eq_true] at h
      simpa using Nat.succ_le_succ (ih h.2)

theorem startsWith_cons_ne {c d : Char} (h : c ≠ d) (ps cs : List Char) :
    startsWith (c :: ps) (d :: cs) = false := by
  simp [startsWith, h]

theorem takeUntilChar_append {c : Char} {a : List Char} (h : c ∉ a) (b : List Char) :
    takeUntilChar c (a ++ c :: b) = some (a, b) := by
  induction a with
  | nil => simp [takeUntilChar]
  | cons x xs ih =>
    have hx : ¬(x = c) := by
      intro hx; exact h (hx ▸ List.mem_cons_self x xs)
    have hxs : c ∉ xs := fun hm => h (List.mem_cons_of_mem _ hm)
    simp [takeUntilChar, hx, ih hxs]

theorem takeUntilChar_length {c : Char} :
    ∀ {s : List Char} {p : List Char × List Char}, takeUntilChar c s = some p →
      p.2.length < s.length := by
  intro s
  induction s with
  | nil => intro p h; simp [takeUntilChar] at h
  | cons x xs ih =>
    intro p h
    simp only [takeUntilChar] at h
    by_cases hx : x == c
    · rw [if_pos hx] at h
      cases h
      simp
    · rw [if_neg hx] at h
      cases ht : takeUntilChar c xs with
      | none => rw [ht] at h; simp at h
      | some q =>
        rw [ht] at h
        have hq := ih ht
        simp only [Option.map_some', Option.some.injEq] at h
        subst h
        simp only [List.length_cons]
        omega

theorem texPat_eq : texPat = ['.', 't', 'e', 'x'] := by decide

theorem auxPat_eq : auxPat = ['.', 'a', 'u', 'x'] := by decide

theorem inclPat_head : inclPat = '\\' :: "includegraphics".toList := by decide

theorem gpPat_head : gpPat = '\\' :: "graphicspath".toList := by decide

theorem bibPat_head : bibPat = '\\' :: "bibliography".toList := by decide

theorem matchDirectiveAt_cons_ne {nm : List Char} {c : Char} (hc : c ≠ '\\')
    (cs : List Char) : matchDirectiveAt ('\\' :: nm) (c :: cs) = none := by
  simp [matchDirectiveAt, startsWith_cons_ne (fun h => hc h.symm) nm cs]

theorem matchDirectiveAt_dir {name arg : List Char} (harg : '}' ∉ arg) (s : List Char) :
    matchDirectiveAt name (name ++ '{' :: (arg ++ '}' :: s)) = some s := by
  have hsp : pyIsSpace '{' = false := by decide
  simp [matchDirectiveAt, startsWith_append_self, List.drop_left, List.dropWhile_cons, hsp,
    matchBraceArg, takeUntilChar_append harg s]

theorem matchDirectiveAt_some_length {name : List Char} (hname : name ≠ []) :
    ∀ {s rest : List Char}, matchDirectiveAt name s = some rest → rest.length < s.length := by
  intro s rest h
  unfold matchDirectiveAt at h
  by_cases hsw : startsWith name s
  · rw [if_pos hsw] at h
    cases hd : (s.drop name.length).dropWhile pyIsSpace with
    | nil => rw [hd] at h; simp [matchBraceArg] at h
    | cons c u =>
      rw [hd] at h
      simp only [matchBraceArg] at h
      by_cases hc : c = '{'
      · rw [if_pos hc] at h
        cases ht : takeUntilChar '}' u with
        | none => rw [ht] at h; simp at h
        | some q =>
          rw [ht] at h
          simp only [Option.map_some', Option.some.injEq] at h
          subst h
          have hq := takeUntilChar_length ht
          have h1 : ((s.drop name.length).dropWhile pyIsSpace).length ≤
              (s.drop name.length).length := (List.dropWhile_sublist _).length_le
          have h2 : (s.drop name.length).length = s.length - name.length := List.length_drop _ _
          have h3 : name.length ≤ s.length := startsWith_length_le hsw
          have h4 : 1 ≤ name.length := List.length_pos.mpr hname
          rw [hd] at h1
          simp only [List.length_cons] at h1
          omega
      · rw [if_neg hc] at h; simp at h
  · rw [if_neg hsw] at h; simp at h

theorem reSubF_fuel {name repl : List Char} (hname : name ≠ []) :
    ∀ (f1 : Nat) (s : List Char) (f2 : Nat), s.length ≤ f1 → s.length ≤ f2 →
      reSubF name repl f1 s = reSubF name repl f2 s := by
  intro f1
  induction f1 with
  | zero =>
    intro s f2 h1 _
    have : s = [] := List.eq_nil_of_length_eq_zero (Nat.le_zero.mp h1)
    subst this
    cases f2 <;> rfl
  | succ f ih =>
    intro s f2 h1 h2
    cases s with
    | nil => cases f2 <;> rfl
    | cons c cs =>
      cases f2 with
      | zero => simp at h2
      | succ f2' =>
        simp only [List.length_cons] at h1 h2
        simp only [reSubF]
        cases hm : matchDirectiveAt name (c :: cs) with
        | some rest =>
          have hr : rest.length < cs.length + 1 := by
            simpa using matchDirectiveAt_some_length hname hm
          show repl ++ reSubF name repl f rest = repl ++ reSubF name repl f2' rest
          rw [ih rest f2' (by omega) (by omega)]
        | none =>
          show c :: reSubF name repl f cs = c :: reSubF name repl f2' cs
          rw [ih cs f2' (by omega) (by omega)]

theorem reSub_nil {name repl : List Char} : reSub name repl [] = [] := rfl

theorem reSub_cons_none {name repl : List Char} {c : Char} {cs : List Char}
    (h : matchDirectiveAt name (c :: cs) = none) :
    reSub name repl (c :: cs) = c :: reSub name repl cs := by
  simp only [reSub, List.length_cons, reSubF, h]

theorem reSub_cons_some {name repl : List Char} {c : Char} {cs rest : List Char}
    (hname : name ≠ []) (h : matchDirectiveAt name (c :: cs) = some rest) :
    reSub name repl (c :: cs) = repl ++ reSub name repl rest := by
  have hr : rest.length < cs.length + 1 := by
    simpa using matchDirectiveAt_some_length hname h
  simp only [reSub, List.length_cons, reSubF, h]
  rw [reSubF_fuel hname cs.length rest rest.length (by omega) (by omega)]

theorem reSub_append_bsfree {nm repl t : List Char} (ht : '\\' ∉ t) (s : List Char) :
    reSub ('\\' :: nm) repl (t ++ s) = t ++ reSub ('\\' :: nm) repl s := by
  induction t with
  | nil => simp
  | cons c cs ih =>
    have hc : c ≠ '\\' := fun h => ht (h ▸ List.mem_cons_self c cs)
    have hcs : '\\' ∉ cs := fun hm => ht (List.mem_cons_of_mem _ hm)
    rw [List.cons_append, reSub_cons_none (matchDirectiveAt_cons_ne hc _), ih hcs]
    rfl

theorem reSub_dir {nm repl arg : List Char} (harg : '}' ∉ arg) (s : List Char) :
    reSub ('\\' :: nm) repl (('\\' :: nm) ++ '{' :: (arg ++ '}' :: s)) =
      repl ++ reSub ('\\' :: nm) repl s := by
  rw [List.cons_append]
  exact reSub_cons_some (by simp) (by
    rw [← List.cons_append]
    exact matchDirectiveAt_dir harg s)

theorem reSub_id_of_no_match {name repl : List Char} :
    ∀ {s : List Char}, hasDirective name s = false → reSub name repl s = s := by
  intro s
  induction s with
  | nil => intro _; rfl
  | cons c cs ih =>
    intro h
    simp only [hasDirective] at h
    cases hm : matchDirectiveAt name (c :: cs) with
    | some rest => rw [hm] at h; simp at h
    | none =>
      rw [hm] at h
      simp at h
      rw [reSub_cons_none hm, ih h]

theorem hasDirective_of_bsfree {nm : List Char} :
    ∀ {t : List Char}, '\\' ∉ t → hasDirective ('\\' :: nm) t = false := by
  intro t
  induction t with
  | nil => intro _; rfl
  | cons c cs ih =>
    intro ht
    have hc : c ≠ '\\' := fun h => ht (h ▸ List.mem_cons_self c cs)
    have hcs : '\\' ∉ cs := fun hm => ht (List.mem_cons_of_mem _ hm)
    simp [hasDirective, matchDirectiveAt_cons_ne hc, ih hcs]

theorem replaceAllF_fuel {pat repl : List Char} (hpat : pat ≠ []) :
    ∀ (f1 : Nat) (s : List Char) (f2 : Nat), s.length ≤ f1 → s.length ≤ f2 →
      replaceAllF pat repl f1 s = replaceAllF pat repl f2 s := by
  intro f1
  induction f1 with
  | zero =>
    intro s f2 h1 _
    have : s = [] := List.eq_nil_of_length_eq_zero (Nat.le_zero.mp h1)
    subst this
    cases f2 <;> rfl
  | succ f ih =>
    intro s f2 h1 h2
    cases s with
    | nil => cases f2 <;> rfl
    | cons c cs =>
      cases f2 with
      | zero => simp at h2
      | succ f2' =>
        simp only [List.length_cons] at h1 h2
        have hp : 1 ≤ pat.length := List.length_pos.mpr hpat
        simp only [replaceAllF]
        by_cases hm : startsWith pat (c :: cs)
        · rw [if_pos hm, if_pos hm]
          have hd : ((c :: cs).drop pat.length).length = cs.length + 1 - pat.length := by
            simp [List.length_drop]
          rw [ih ((c :: cs).drop pat.length) f2' (by omega) (by omega)]
        · rw [if_neg hm, if_neg hm, ih cs f2' (by omega) (by omega)]

theorem replaceAll_cons_neg {pat repl : List Char} {c : Char} {cs : List Char}
    (h : startsWith pat (c :: cs) = false) :
    replaceAll pat repl (c :: cs) = c :: replaceAll pat repl cs := by
  simp only [replaceAll, List.length_cons, replaceAllF, h]
  simp

theorem replaceAll_cons_pos {pat repl : List Char} {c : Char} {cs : List Char}
    (hpat : pat ≠ []) (h : startsWith pat (c :: cs) = true) :
    replaceAll pat repl (c :: cs) = repl ++ replaceAll pat repl ((c :: cs).drop pat.length) := by
  have hp : 1 ≤ pat.length := List.length_pos.mpr hpat
  have hd : ((c :: cs).drop pat.length).length = cs.length + 1 - pat.length := by
    simp [List.length_drop]
  simp only [replaceAll, List.length_cons, replaceAllF, h, if_true]
  rw [replaceAllF_fuel hpat cs.length ((c :: cs).drop pat.length)
    ((c :: cs).drop pat.length).length (by omega) (by omega)]

theorem startsWith_texPat_straddle :
    ∀ {s : List Char}, s ≠ [] → occursIn texPat s = false →
      startsWith texPat (s ++ texPat) = false := by
  intro s hs h
  match s with
  | [] => exact absurd rfl hs
  | [a] => simp [texPat_eq, startsWith]
  | [a, b] => simp [texPat_eq, startsWith]
  | [a, b, c] => simp [texPat_eq, startsWith]
  | a :: b :: c :: d :: rest =>
    simp only [occursIn, Bool.or_eq_false_iff] at h
    have h0 := h.1
    simp only [texPat_eq, startsWith, List.cons_append] at h0 ⊢
    simpa using h0

theorem aux_replace_of_no_occur :
    ∀ {stem : List Char}, occursIn texPat stem = false →
      replaceAll texPat auxPat (stem ++ texPat) = stem ++ auxPat := by
  intro stem
  induction stem with
  | nil =>
    intro _
    simp only [List.nil_append]
    decide
  | cons c stem' ih =>
    intro h
    simp only [occursIn, Bool.or_eq_false_iff] at h
    obtain ⟨h1, h2⟩ := h
    have hsw : startsWith texPat ((c :: stem') ++ texPat) = false :=
      startsWith_texPat_straddle (by simp) (by simp [occursIn, h1, h2])
    rw [List.cons_append] at hsw
    rw [List.cons_append, replaceAll_cons_neg hsw, ih h2, List.cons_append]

theorem matchIncludeAt_cons_ne {c : Char} (hc : c ≠ '\\') (cs : List Char) :
    matchIncludeAt (c :: cs) = none := by
  have hsw : startsWith inclPat (c :: cs) = false := by
    rw [inclPat_head]
    exact startsWith_cons_ne (fun h => hc h.symm) _ _
  simp [matchIncludeAt, hsw]

theorem lastMatch_bsfree : ∀ {t : List Char}, '\\' ∉ t → lastMatch t = none := by
  intro t
  induction t with
  | nil => intro _; rfl
  | cons c cs ih =>
    intro ht
    have hc : c ≠ '\\' := fun h => ht (h ▸ List.mem_cons_self c cs)
    have hcs : '\\' ∉ cs := fun hm => ht (List.mem_cons_of_mem _ hm)
    simp [lastMatch, ih hcs, matchIncludeAt_cons_ne hc]

theorem lastMatch_append_some :
    ∀ (x : List Char) {t cap : List Char}, lastMatch t = some cap →
      lastMatch (x ++ t) = some cap := by
  intro x
  induction x with
  | nil => intro t cap h; simpa using h
  | cons c cs ih =>
    intro t cap h
    rw [List.cons_append]
    simp [lastMatch, ih h]

theorem lastMatch_cons_of_none {c : Char} {cs : List Char} (h : lastMatch cs = none) :
    lastMatch (c :: cs) = matchIncludeAt (c :: cs) := by
  simp [lastMatch, h]

theorem lastMatch_inclDir {r : List Char} (hb : '\\' ∉ r) (hr : '}' ∉ r) :
    lastMatch (inclDir r) = some r := by
  have hnb : '\\' ∉ "includegraphics".toList ++ '{' :: (r ++ ['}']) := by
    intro hm
    rw [List.mem_append, List.mem_cons] at hm
    rcases hm with hm | hm | hm
    · exact absurd hm (by decide)
    · exact absurd hm (by decide)
    · rw [List.mem_append, List.mem_cons] at hm
      rcases hm with hm | hm | hm
      · exact hb hm
      · exact absurd hm (by decide)
      · simp at hm
  have hshape : inclDir r = '\\' :: ("includegraphics".toList ++ '{' :: (r ++ ['}'])) := by
    rw [inclDir, inclPat_head, List.cons_append]
  have h1 : lastMatch (inclDir r) = matchIncludeAt (inclDir r) := by
    rw [hshape]
    exact lastMatch_cons_of_none (lastMatch_bsfree hnb)
  rw [h1, inclDir]
  unfold matchIncludeAt
  rw [if_pos (startsWith_append_self inclPat _), List.drop_left]
  simp only [matchIncludeArgs]
  rw [if_neg (by decide)]
  simp only [tryBrace, if_true]
  have ht : takeUntilChar '}' (r ++ ['}']) = some (r, []) := takeUntilChar_append hr []
  simp [ht]

theorem splitLines_ne_nil : ∀ (t : List Char), splitLines t ≠ [] := by
  intro t
  cases t with
  | nil => simp [splitLines]
  | cons c cs =>
    simp only [splitLines]
    cases h : splitLines cs with
    | nil => simp
    | cons l ls =>
      by_cases hc : c == '\n' <;> simp [hc]

theorem splitLines_no_newline : ∀ {s : List Char}, '\n' ∉ s → splitLines s = [s] := by
  intro s
  induction s with
  | nil => intro _; rfl
  | cons c cs ih =>
    intro hs
    have hc : ¬(c == '\n') := by
      have : c ≠ '\n' := fun h => hs (h ▸ List.mem_cons_self c cs)
      simpa using this
    have hcs : '\n' ∉ cs := fun hm => hs (List.mem_cons_of_mem _ hm)
    simp [splitLines, ih hcs, hc]

theorem splitLines_append :
    ∀ {x : List Char}, '\n' ∉ x → ∀ (t : List Char),
      splitLines (x ++ '\n' :: t) = x :: splitLines t := by
  intro x
  induction x with
  | nil =>
    intro _ t
    simp only [List.nil_append, splitLines]
    cases h : splitLines t with
    | nil => exact absurd h (splitLines_ne_nil t)
    | cons l ls => simp
  | cons c cs ih =>
    intro hx t
    have hc : ¬(c == '\n') := by
      have : c ≠ '\n' := fun h => hx (h ▸ List.mem_cons_self c cs)
      simpa using this
    have hcs : '\n' ∉ cs := fun hm => hx (List.mem_cons_of_mem _ hm)
    rw [List.cons_append]
    simp only [splitLines, ih hcs t]
    simp [hc]

theorem lineMatch_comment : ∀ (rest : List Char), lineMatch ('%' :: rest) = none := by
  intro rest
  simp [lineMatch, isCommentLine]

theorem filterMap_lineMatch_filter :
    ∀ (ls : List (List Char)),
      ls.filterMap lineMatch =
        (ls.filter (fun l => !isCommentLine l)).filterMap lineMatch := by
  intro ls
  induction ls with
  | nil => rfl
  | cons l ls ih =>
    by_cases hcl : isCommentLine l
    · have hnone : lineMatch l = none := by simp [lineMatch, hcl]
      simp [List.filterMap_cons, List.filter_cons, hcl, hnone, ih]
    · simp only [List.filter_cons]
      rw [if_pos (by simp [hcl])]
      cases hl : lineMatch l with
      | none => simp [List.filterMap_cons, hl, ih]
      | some cap => simp [List.filterMap_cons, hl, ih]

theorem copy_figures_go_allOk {env : CopyEnv} (h : ∀ p, env.copyOk p = true)
    (figPath targetDir : List Char) :
    ∀ (figs : List (List Char)) (i : Nat),
      copy_figures_go env figPath targetDir i figs =
        ⟨true, allResolved env figPath targetDir i figs,
          (allResolved env figPath targetDir i figs).length⟩ := by
  intro figs
  induction figs with
  | nil => intro i; rfl
  | cons fig rest ih =>
    intro i
    cases hf : firstExt env figPath fig with
    | some ext =>
      simp only [copy_figures_go, allResolved, hf]
      rw [if_pos (h _)]
      simp [ih (i + 1)]
    | none =>
      simp only [copy_figures_go, allResolved, hf]
      exact ih (i + 1)

theorem newline_not_mem_inclDir {r : List Char} (h : '\n' ∉ r) : '\n' ∉ inclDir r := by
  intro hm
  rw [inclDir, List.mem_append] at hm
  rcases hm with hm | hm
  · exact absurd hm (by decide)
  · rw [List.mem_cons] at hm
    rcases hm with hm | hm
    · exact absurd hm (by decide)
    · rw [List.mem_append] at hm
      rcases hm with hm | hm
      · exact h hm
      · exact absurd hm (by decide)

theorem lineMatch_of_not_comment {line : List Char} (h : isCommentLine line = false) :
    lineMatch line = lastMatch line := by
  simp [lineMatch, h]

theorem extract_render_lines :
    ∀ (items : List (List Char × List Char)),
      (∀ p ∈ items, '\n' ∉ p.1 ∧ isCommentLine (p.1 ++ inclDir p.2) = false ∧
        '\\' ∉ p.2 ∧ '}' ∉ p.2 ∧ '\n' ∉ p.2) →
      extract_figure_names ((items.map (fun p => p.1 ++ inclDir p.2 ++ ['\n'])).flatten) =
        items.map (fun p => p.2) := by
  intro items
  induction items with
  | nil => intro _; rfl
  | cons p rest ih =>
    intro hc
    obtain ⟨hn1, hcm, hb, hr, hn2⟩ := hc p (List.mem_cons_self p rest)
    have hrest := fun q hq => hc q (List.mem_cons_of_mem _ hq)
    have hline : '\n' ∉ p.1 ++ inclDir p.2 := by
      rw [List.mem_append]
      rintro (hm | hm)
      · exact hn1 hm
      · exact newline_not_mem_inclDir hn2 hm
    have hsplit :
        splitLines ((p.1 ++ inclDir p.2 ++ ['\n']) ++
            (rest.map (fun q => q.1 ++ inclDir q.2 ++ ['\n'])).flatten) =
          (p.1 ++ inclDir p.2) ::
            splitLines ((rest.map (fun q => q.1 ++ inclDir q.2 ++ ['\n'])).flatten) := by
      rw [List.append_assoc, List.singleton_append]
      exact splitLines_append hline _
    have hlm : lineMatch (p.1 ++ inclDir p.2) = some p.2 := by
      rw [lineMatch_of_not_comment hcm]
      exact lastMatch_append_some p.1 (lastMatch_inclDir hb hr)
    simp only [List.map_cons, List.flatten_cons, extract_figure_names] at ih ⊢
    rw [hsplit, List.filterMap_cons, hlm, ih hrest]

theorem rewrite_bibliography_unchanged {s : List Char} (h : hasDirective bibPat s = false) :
    rewrite_bibliography s = s :=
  reSub_id_of_no_match h

theorem bib_chunks_helper :
    ∀ (chunks : List (List Char × List Char)) (tail : List Char),
      (∀ p ∈ chunks, '\\' ∉ p.1 ∧ '}' ∉ p.2) → '\\' ∉ tail →
      rewrite_bibliography ((chunks.map bibChunk).flatten ++ tail) =
        (chunks.map (fun p => p.1 ++ canonicalBib)).flatten ++ tail := by
  intro chunks
  induction chunks with
  | nil =>
    intro tail _ htail
    simp only [List.map_nil, List.flatten_nil, List.nil_append]
    unfold rewrite_bibliography
    rw [bibPat_head]
    exact reSub_id_of_no_match (hasDirective_of_bsfree htail)
  | cons p rest ih =>
    intro tail hc htail
    obtain ⟨hp1, hp2⟩ := hc p (List.mem_cons_self p rest)
    have hrest : ∀ q ∈ rest, '\\' ∉ q.1 ∧ '}' ∉ q.2 :=
      fun q hq => hc q (List.mem_cons_of_mem _ hq)
    have ihX := ih tail hrest htail
    unfold rewrite_bibliography at ihX ⊢
    rw [bibPat_head] at ihX ⊢
    have hX : bibChunk p ++ ((rest.map bibChunk).flatten ++ tail) =
        p.1 ++ (('\\' :: "bibliography".toList) ++
          '{' :: (p.2 ++ '}' :: ((rest.map bibChunk).flatten ++ tail))) := by
      rw [← bibPat_head]
      simp [bibChunk, List.append_assoc]
    simp only [List.map_cons, List.flatten_cons, List.append_assoc]
    rw [hX, reSub_append_bsfree hp1, reSub_dir hp2, ihX]

/-! ## Claim theorems -/

/-- C9: a line whose first character is the comment marker `%` never contributes
an entry to the extractor's result, regardless of what follows on the line:
`lineMatch` rejects every such line, so the extraction is unchanged when all
comment lines are discarded. -/
theorem extract_figure_names_ignores_comment_lines :
    (∀ (rest : List Char), lineMatch ('%' :: rest) = none) ∧
    (∀ (content : List Char),
      extract_figure_names content =
        ((splitLines content).filter (fun l => !isCommentLine l)).filterMap lineMatch) := by
  constructor
  · exact lineMatch_comment
  · intro content
    exact filterMap_lineMatch_filter (splitLines content)

/-- C10: `extract_figure_names` returns at most one reference per line, and when
several inclusion directives share one non-comment line, only the last directive
on the line is captured (the greedy line-anchored pattern drops the earlier
ones). -/
theorem extract_figure_names_last_directive_wins :
    (∀ (content : List Char),
      (extract_figure_names content).length ≤ (splitLines content).length) ∧
    (∀ (l1 a l2 b : List Char),
      '\n' ∉ l1 → '\n' ∉ a → '\n' ∉ l2 → '\n' ∉ b →
      isCommentLine (l1 ++ inclDir a ++ l2 ++ inclDir b) = false →
      '\\' ∉ b → '}' ∉ b →
      extract_figure_names (l1 ++ inclDir a ++ l2 ++ inclDir b) = [b]) := by
  constructor
  · intro content
    exact List.length_filterMap_le _ _
  · intro l1 a l2 b h1 h2 h3 h4 hcm hb hr
    have hnl : '\n' ∉ l1 ++ inclDir a ++ l2 ++ inclDir b := by
      intro hm
      simp only [List.mem_append] at hm
      rcases hm with ((hm | hm) | hm) | hm
      · exact h1 hm
      · exact newline_not_mem_inclDir h2 hm
      · exact h3 hm
      · exact newline_not_mem_inclDir h4 hm
    have hlm : lineMatch (l1 ++ inclDir a ++ l2 ++ inclDir b) = some b := by
      rw [lineMatch_of_not_comment hcm]
      exact lastMatch_append_some _ (lastMatch_inclDir hb hr)
    rw [extract_figure_names, splitLines_no_newline hnl, List.filterMap_cons, hlm]
    rfl

/-- C10 witness: on the concrete line `ab \includegraphics{x} mid
\includegraphics{y}` the extractor returns exactly `[y]`. -/
theorem extract_figure_names_last_directive_wins_witness :
    extract_figure_names
        ("ab ".toList ++ inclDir "x".toList ++ " mid ".toList ++ inclDir "y".toList) =
      ["y".toList] :=
  extract_figure_names_last_directive_wins.2 "ab ".toList "x".toList " mid ".toList "y".toList
    (by decide) (by decide) (by decide) (by decide) (by decide) (by decide) (by decide)

/-- C1 counterexample: a document made of a single non-comment line containing
two inclusion directives.  The claim demands two extracted entries, but
`extract_figure_names` returns exactly one (the last on the line). -/
theorem extract_figure_names_two_on_a_line :
    extract_figure_names "\\includegraphics{a} \\includegraphics{b}".toList = ["b".toList] ∧
    (extract_figure_names "\\includegraphics{a} \\includegraphics{b}".toList).length ≠ 2 := by
  exact ⟨by decide, by decide⟩

/-- C1 (amended): when the figure-inclusion directives sit on distinct
non-comment lines — each line an arbitrary newline-free prefix followed by one
well-formed directive — the extractor returns exactly one captured path per
directive, in document order, including duplicates. -/
theorem extract_figure_names_one_per_line :
    ∀ (items : List (List Char × List Char)),
      (∀ p ∈ items, '\n' ∉ p.1 ∧ isCommentLine (p.1 ++ inclDir p.2) = false ∧
        '\\' ∉ p.2 ∧ '}' ∉ p.2 ∧ '\n' ∉ p.2) →
      extract_figure_names ((items.map (fun p => p.1 ++ inclDir p.2 ++ ['\n'])).flatten) =
        items.map (fun p => p.2) :=
  extract_render_lines

/-- C1 witness: three directives on three lines, with a duplicated path and a
line where the directive follows other text, extract in order with the
duplicate retained. -/
theorem extract_figure_names_one_per_line_witness :
    extract_figure_names
        (([(([] : List Char), "figs/a".toList), ("text ".toList, "b".toList),
            (([] : List Char), "figs/a".toList)].map
          (fun p => p.1 ++ inclDir p.2 ++ ['\n'])).flatten) =
      ["figs/a".toList, "b".toList, "figs/a".toList] :=
  extract_figure_names_one_per_line
    [([], "figs/a".toList), ("text ".toList, "b".toList), ([], "figs/a".toList)]
    (by decide)

/-- C3: the bibliography rewrite replaces each well-formed bibliography
directive (argument single-line or spanning lines) with exactly
`\bibliography{References}`, and leaves any text without a matching directive
unchanged. -/
theorem rewrite_bibliography_spec :
    (∀ (s : List Char), hasDirective bibPat s = false → rewrite_bibliography s = s) ∧
    (∀ (chunks : List (List Char × List Char)) (tail : List Char),
      (∀ p ∈ chunks, '\\' ∉ p.1 ∧ '}' ∉ p.2) → '\\' ∉ tail →
      rewrite_bibliography ((chunks.map bibChunk).flatten ++ tail) =
        (chunks.map (fun p => p.1 ++ canonicalBib)).flatten ++ tail) := by
  constructor
  · intro s h
    exact reSub_id_of_no_match h
  · exact bib_chunks_helper

/-- C3 witness: two directives, the second with a multi-line argument, are both
rewritten to the canonical form, and a directive-free text is left unchanged. -/
theorem rewrite_bibliography_spec_witness :
    rewrite_bibliography
        (([("text ".toList, "../LibraryAllReferences".toList),
            (" more ".toList, ("refs".toList ++ '\n' :: "second".toList))].map bibChunk).flatten ++
          " end".toList) =
      (([("text ".toList, "../LibraryAllReferences".toList),
          (" more ".toList, ("refs".toList ++ '\n' :: "second".toList))].map
        (fun p => p.1 ++ canonicalBib)).flatten ++ " end".toList) ∧
    rewrite_bibliography "no directive here".toList = "no directive here".toList := by
  constructor
  · exact rewrite_bibliography_spec.2
      [("text ".toList, "../LibraryAllReferences".toList),
        (" more ".toList, ("refs".toList ++ '\n' :: "second".toList))]
      " end".toList (by decide) (by decide)
  · exact rewrite_bibliography_spec.1 "no directive here".toList (by decide)

/-- C4 counterexample: the `\graphicspath` strip is not idempotent.  Removing
the directive from `\graphicspath\graphicspath{x}{y}` splices together the new
directive `\graphicspath{y}`, which only a second pass removes. -/
theorem strip_graphicspath_not_idempotent :
    strip_graphicspath (strip_graphicspath "\\graphicspath\\graphicspath{x}{y}".toList) ≠
      strip_graphicspath "\\graphicspath\\graphicspath{x}{y}".toList := by
  decide

/-- C4 (amended): the strip is idempotent on every document whose one-pass
output no longer matches the directive pattern (in particular whenever no new
directive is spliced together by a removal). -/
theorem strip_graphicspath_idempotent_cond :
    ∀ (s : List Char), hasDirective gpPat (strip_graphicspath s) = false →
      strip_graphicspath (strip_graphicspath s) = strip_graphicspath s := by
  intro s h
  exact reSub_id_of_no_match h

/-- C4 witness: on an ordinary document with one search-path directive the strip
is idempotent. -/
theorem strip_graphicspath_idempotent_cond_witness :
    strip_graphicspath (strip_graphicspath "a\\graphicspath{../Figures/}b".toList) =
      strip_graphicspath "a\\graphicspath{../Figures/}b".toList :=
  strip_graphicspath_idempotent_cond "a\\graphicspath{../Figures/}b".toList (by decide)

/-- C8 counterexample: for the main document `a.tex.tex` the script replaces
every occurrence of `.tex`, producing `a.aux.aux` instead of the extension-only
replacement `a.tex.aux`. -/
theorem aux_file_name_counterexample :
    aux_file_name "a.tex.tex".toList = "a.aux.aux".toList ∧
    aux_file_name "a.tex.tex".toList ≠ "a.tex.aux".toList := by
  exact ⟨by decide, by decide⟩

/-- C8 (amended): the auxiliary path replaces every occurrence of `.tex` by
`.aux`; for a main-document path whose stem contains no further `.tex`
substring, this is exactly the replacement of the final extension, leaving the
rest of the path unchanged. -/
theorem aux_file_name_amended :
    ∀ (stem : List Char), occursIn texPat stem = false →
      aux_file_name (stem ++ texPat) = stem ++ auxPat := by
  intro stem h
  exact aux_replace_of_no_occur h

/-- C8 witness: `Main.tex` maps to `Main.aux`. -/
theorem aux_file_name_amended_witness :
    aux_file_name ("Main".toList ++ texPat) = "Main".toList ++ auxPat :=
  aux_file_name_amended "Main".toList (by decide)

/-- C2 counterexample: for the reference `fig.v2.png` the base name is `fig.v2`
and exactly one of its four probe extensions exists on disk
(only `figs/fig.v2.pdf`), yet `copy_figures` produces no target at all: pathlib
`.with_suffix` strips a second suffix, so the script probes `figs/fig.pdf`
instead of the base name. -/
theorem copy_figures_dotted_stem_probe :
    (extsList.filter
        (fun ext => (fun p => p == "figs/fig.v2.pdf".toList) ("figs/fig.v2".toList ++ ext))).length
      = 1 ∧
    copy_figures ⟨fun p => p == "figs/fig.v2.pdf".toList, fun _ => true⟩
        ["fig.v2.png".toList] "figs".toList "out".toList = ⟨true, [], 0⟩ := by
  exact ⟨by decide, by decide⟩

/-- C2 (amended): with no copy errors, `copy_figures` succeeds and performs
exactly the copies of the resolution map: the reference at 0-based position `i`
whose first existing probe extension is `ext` is copied to
`targetDir/Fig(i+1)ext`, where the probed name is the reference's final
component with its last suffix stripped by `.stem` and one further suffix
stripped by `.with_suffix`; and when exactly one of the four probe candidates
exists on disk, the extension loop resolves precisely that extension. -/
theorem copy_figures_resolution_spec :
    (∀ (env : CopyEnv) (figPath targetDir : List Char) (figs : List (List Char)) (i : Nat),
      (∀ p, env.copyOk p = true) →
      copy_figures_go env figPath targetDir i figs =
        ⟨true, allResolved env figPath targetDir i figs,
          (allResolved env figPath targetDir i figs).length⟩) ∧
    (∀ (env : CopyEnv) (figPath fig e0 : List Char),
      e0 ∈ extsList →
      (∀ ext ∈ extsList, (env.pathExists (probeFile figPath fig ext) = true ↔ ext = e0)) →
      firstExt env figPath fig = some e0) := by
  constructor
  · intro env figPath targetDir figs i h
    exact copy_figures_go_allOk h figPath targetDir figs i
  · intro env figPath fig e0 hmem hiff
    have he : ∀ e, e ∈ extsList → env.pathExists (probeFile figPath fig e) = decide (e = e0) := by
      intro e hm
      by_cases hx : e = e0
      · subst hx
        simp [(hiff e hm).mpr rfl]
      · have hne : env.pathExists (probeFile figPath fig e) ≠ true :=
          fun hc => hx ((hiff e hm).mp hc)
        simp only [Bool.not_eq_true] at hne
        simp [hne, hx]
    have h1 := he ".pdf".toList (by decide)
    have h2 := he ".png".toList (by decide)
    have h3 := he ".jpg".toList (by decide)
    have h4 := he ".jpeg".toList (by decide)
    have hm4 : e0 = ".pdf".toList ∨ e0 = ".png".toList ∨ e0 = ".jpg".toList ∨
        e0 = ".jpeg".toList := by
      simpa [extsList] using hmem
    rcases hm4 with rfl | rfl | rfl | rfl <;>
      (simp +decide at h1 h2 h3 h4;
        simp +decide [firstExt, extsList, List.find?_cons, h1, h2, h3, h4])

/-- C2 witness: the single reference `plots/demo` with only `figs/demo.png`
existing yields the single copy to `transformed/Fig1.png`. -/
theorem copy_figures_resolution_spec_witness :
    copy_figures_go ⟨fun p => p == "figs/demo.png".toList, fun _ => true⟩
        "figs".toList "transformed".toList 0 ["plots/demo".toList] =
      ⟨true, [("figs/demo.png".toList, "transformed/Fig1.png".toList)], 1⟩ := by
  have h := copy_figures_resolution_spec.1 ⟨fun p => p == "figs/demo.png".toList, fun _ => true⟩
    "figs".toList "transformed".toList ["plots/demo".toList] 0 (fun _ => rfl)
  rw [h]
  decide

/-- C5: a reference with no existing probe candidate is only a per-item warning
— with no copy errors the copier continues past it and still returns success —
while an exception during an actual copy aborts immediately with `False`,
performing nothing further regardless of the remaining references. -/
theorem copy_figures_error_handling :
    (∀ (env : CopyEnv) (figPath targetDir : List Char) (figs : List (List Char)),
      (∀ p, env.copyOk p = true) →
      (copy_figures env figs figPath targetDir).ok = true) ∧
    (∀ (env : CopyEnv) (figPath targetDir fig : List Char) (i : Nat)
        (rest : List (List Char)),
      firstExt env figPath fig = none →
      copy_figures_go env figPath targetDir i (fig :: rest) =
        copy_figures_go env figPath targetDir (i + 1) rest) ∧
    (∀ (env : CopyEnv) (figPath targetDir fig e0 : List Char) (i : Nat)
        (rest : List (List Char)),
      firstExt env figPath fig = some e0 →
      env.copyOk (probeFile figPath fig e0) = false →
      copy_figures_go env figPath targetDir i (fig :: rest) = ⟨false, [], 0⟩) := by
  refine ⟨?_, ?_, ?_⟩
  · intro env figPath targetDir figs h
    rw [copy_figures, copy_figures_go_allOk h figPath targetDir figs 0]
  · intro env figPath targetDir fig i rest h
    simp [copy_figures_go, h]
  · intro env figPath targetDir fig e0 i rest h hc
    simp [copy_figures_go, h, hc]

/-- C5 witness: a failing copy aborts with `False` before touching the rest of
the list, and a missing figure alone still yields overall success. -/
theorem copy_figures_error_handling_witness :
    copy_figures_go ⟨fun _ => true, fun _ => false⟩ "figs".toList "out".toList 0
        ["a".toList, "b".toList] = ⟨false, [], 0⟩ ∧
    (copy_figures ⟨fun _ => false, fun _ => true⟩ ["missing".toList] "figs".toList
        "out".toList).ok = true := by
  constructor
  · exact copy_figures_error_handling.2.2 ⟨fun _ => true, fun _ => false⟩ "figs".toList
      "out".toList "a".toList ".pdf".toList 0 ["b".toList] (by decide) rfl
  · exact copy_figures_error_handling.1 ⟨fun _ => false, fun _ => true⟩ "figs".toList
      "out".toList ["missing".toList] (fun _ => rfl)

/-- C6: `validate_inputs` returns the empty list exactly when all preconditions
hold (main document exists, derived auxiliary file exists, figure directory
exists, expander path exists and is not a directory); the checks are evaluated
independently — the list length is the number of failed checks, the two
expander conditions being mutually exclusive; and any reported error makes the
pipeline exit with status 1 before the output directory is created or anything
else runs. -/
theorem validate_inputs_spec :
    (∀ (pe idir : List Char → Bool) (mn fp lp : List Char),
      validate_inputs pe idir mn fp lp = [] ↔
        (pe mn = true ∧ pe (aux_file_name mn) = true ∧ pe fp = true ∧
          pe lp = true ∧ idir lp = false)) ∧
    (∀ (pe idir : List Char → Bool) (mn fp lp : List Char),
      (validate_inputs pe idir mn fp lp).length =
        (if pe mn then 0 else 1) + (if pe (aux_file_name mn) then 0 else 1) +
        (if pe fp then 0 else 1) +
        (if pe lp then (if idir lp then 1 else 0) else 1)) ∧
    (∀ (env : SysEnv) (mn fp lp : List Char),
      validate_inputs env.pathExists env.isDir mn fp lp ≠ [] →
      (mainRun env mn fp lp).exitCode = 1 ∧
      (mainRun env mn fp lp).transformedCreated = false ∧
      (mainRun env mn fp lp).bibRan = false ∧
      (mainRun env mn fp lp).lpRan = false ∧
      (mainRun env mn fp lp).copies = [] ∧
      (mainRun env mn fp lp).finalContent = none) := by
  refine ⟨?_, ?_, ?_⟩
  · intro pe idir mn fp lp
    cases h1 : pe mn <;> cases h2 : pe (aux_file_name mn) <;> cases h3 : pe fp <;>
      cases h4 : pe lp <;> cases h5 : idir lp <;>
      simp [validate_inputs, h1, h2, h3, h4, h5]
  · intro pe idir mn fp lp
    cases h1 : pe mn <;> cases h2 : pe (aux_file_name mn) <;> cases h3 : pe fp <;>
      cases h4 : pe lp <;> cases h5 : idir lp <;>
      simp [validate_inputs, h1, h2, h3, h4, h5]
  · intro env mn fp lp h
    have hne : (validate_inputs env.pathExists env.isDir mn fp lp).isEmpty = false := by
      cases hv : validate_inputs env.pathExists env.isDir mn fp lp with
      | nil => exact absurd hv h
      | cons a l => rfl
    simp [mainRun, hne]

/-- C6 witness: with every file-system query answering `false`, validation is
non-empty, the run exits with status 1 and the output directory is never
created. -/
theorem validate_inputs_spec_witness :
    (mainRun
        ⟨fun _ => false, fun _ => false, 0, 0, true, 1, true, [], fun _ => false,
          fun _ => true, true, true, true⟩
        "Main.tex".toList "Figs".toList "lp".toList).exitCode = 1 ∧
    (mainRun
        ⟨fun _ => false, fun _ => false, 0, 0, true, 1, true, [], fun _ => false,
          fun _ => true, true, true, true⟩
        "Main.tex".toList "Figs".toList "lp".toList).transformedCreated = false := by
  have h := validate_inputs_spec.2.2
    ⟨fun _ => false, fun _ => false, 0, 0, true, 1, true, [], fun _ => false,
      fun _ => true, true, true, true⟩
    "Main.tex".toList "Figs".toList "lp".toList (by decide)
  exact ⟨h.1, h.2.1⟩

/-- C7: after validation passes, the run is treated as a failure — exit status 1
with no extraction, no copy, no relocation and no rewrite — whenever the
expansion tool reports a non-zero exit status, or the temporary merged file is
missing or has zero size despite a zero exit status. -/
theorem expansion_failure_aborts :
    ∀ (env : SysEnv) (mn fp lp : List Char),
      validate_inputs env.pathExists env.isDir mn fp lp = [] →
      (env.lpExit ≠ 0 ∨ env.tmpExistsAfter = false ∨ env.tmpSize = 0) →
      (mainRun env mn fp lp).exitCode = 1 ∧
      (mainRun env mn fp lp).figures = [] ∧
      (mainRun env mn fp lp).copyCalled = false ∧
      (mainRun env mn fp lp).copies = [] ∧
      (mainRun env mn fp lp).moved = false ∧
      (mainRun env mn fp lp).rewritten = false := by
  intro env mn fp lp hv h
  have hve : (validate_inputs env.pathExists env.isDir mn fp lp).isEmpty = true := by
    rw [hv]
    rfl
  rcases h with h | h | h
  · have hlp : (env.lpExit == 0) = false := by
      simp only [beq_eq_false_iff_ne, ne_eq]
      exact h
    simp [mainRun, hve, hlp]
  · cases hlp : (env.lpExit == 0) <;> simp [mainRun, hve, hlp, h]
  · cases hlp : (env.lpExit == 0) <;> cases hte : env.tmpExistsAfter <;>
      simp [mainRun, hve, hlp, hte, h]

/-- C7 witness: a pipeline environment whose expansion tool exits with status 2
ends with exit status 1 and no copies. -/
theorem expansion_failure_aborts_witness :
    (mainRun
        ⟨fun _ => true, fun _ => false, 0, 2, true, 5, true, [], fun _ => false,
          fun _ => true, true, true, true⟩
        "Main.tex".toList "Figs".toList "lp".toList).exitCode = 1 ∧
    (mainRun
        ⟨fun _ => true, fun _ => false, 0, 2, true, 5, true, [], fun _ => false,
          fun _ => true, true, true, true⟩
        "Main.tex".toList "Figs".toList "lp".toList).copies = [] := by
  have h := expansion_failure_aborts
    ⟨fun _ => true, fun _ => false, 0, 2, true, 5, true, [], fun _ => false,
      fun _ => true, true, true, true⟩
    "Main.tex".toList "Figs".toList "lp".toList (by decide) (Or.inl (by decide))
  exact ⟨h.1, h.2.2.2.1⟩
